import Mathlib

/-
Verification of the weblog sessionization core of PaytmLabs_challenge.py.

Embedding conventions:
- timestamps are rationals (seconds since some origin); durations are
  rational minutes, so a gap is (t2 - t1) / 60 as in the source;
- Python lists are Lean lists; the mixed-shape timestamp list built by
  getPageDurations (a bare datetime followed by singleton lists of
  datetimes) is the inductive type PyTs;
- a Python exception escaping a function (ZeroDivisionError in the
  percentage and average computations) is modelled as Option.none;
- the plotting side effects of the source are irrelevant to the values
  computed and are not modelled.
-/

/-- A timestamp entry as stored by getPageDurations: the first entry of the
list is a bare datetime, every later entry is a singleton list holding one
datetime. -/
inductive PyTs where
  | dt (t : ℚ)
  | lst (l : List ℚ)
  deriving DecidableEq

/-- The per-client value produced by getPageDurations: the source returns
(cid, [lurls, lts, ldurs]). -/
structure Timeline where
  urls : List String
  ts : List PyTs
  durs : List ℚ
  deriving DecidableEq

/-- One session as built by getSessions: the source stores
(cid, [lsess_durs, lsess_urls, lsess_ts]). -/
structure Session where
  durs : List ℚ
  urls : List String
  ts : List PyTs
  deriving DecidableEq

/-- The url list built by the loop of getPageDurations (one url per later
event, in order). -/
def pdUrls : List (ℚ × String) → List String
  | [] => []
  | (_, u) :: rest => u :: pdUrls rest

/-- The timestamp list built by the loop of getPageDurations: each later
event contributes the singleton list [j[0]]. -/
def pdTs : List (ℚ × String) → List PyTs
  | [] => []
  | (t, _) :: rest => PyTs.lst [t] :: pdTs rest

/-- The duration list built by the loop of getPageDurations: minutes between
consecutive events, (j[0] - i[0]).total_seconds() / 60. -/
def pdDurs : ℚ → List (ℚ × String) → List ℚ
  | _, [] => []
  | prev, (t, _) :: rest => (t - prev) / 60 :: pdDurs t rest

/-- getPageDurations: input (cid, sorted list of (timestamp, url) pairs),
output (cid, Timeline).  An empty event list makes the source raise an
IndexError at dat[0][0]; that is modelled as none. -/
def getPageDurations : String × List (ℚ × String) → Option (String × Timeline)
  | (_, []) => none
  | (cid, (t0, u0) :: rest) =>
      some (cid, { urls := u0 :: pdUrls rest,
                   ts := PyTs.dt t0 :: pdTs rest,
                   durs := 0 :: pdDurs t0 rest })

/-- The timestamp of event i of a raw per-client event list (0 when out of
range), used to state the gap formula of the spec. -/
def tsAt (dat : List (ℚ × String)) (i : ℕ) : ℚ := (dat.map Prod.fst).getD i 0

/-- The Timeline invariants of the data model: parallel lists of one length,
first gap 0, gaps non-negative. -/
def TimelineWF (tl : Timeline) : Prop :=
  tl.urls.length = tl.ts.length ∧ tl.durs.length = tl.urls.length ∧
    tl.durs.headD 0 = 0 ∧ ∀ d ∈ tl.durs, 0 ≤ d

instance (tl : Timeline) : Decidable (TimelineWF tl) := by
  unfold TimelineWF
  infer_instance

/-- Python zip over three lists (truncating to the shortest), as used by
getSessions over (urls, timestamps, durations). -/
def zip3 {α β γ : Type} : List α → List β → List γ → List (α × β × γ)
  | a :: as2, b :: bs, c :: cs => (a, b, c) :: zip3 as2 bs cs
  | _, _, _ => []

/-- The loop of getSessions: the accumulator cur holds the current session
lists (lsess_durs, lsess_urls, lsess_ts); on a gap below the window the
event joins cur, otherwise cur is emitted and the lists restart with the
current event and duration 0; after the loop cur is emitted. -/
def getSessionsLoop (W : ℚ) : Session → List (String × PyTs × ℚ) → List Session
  | cur, [] => [cur]
  | cur, (u, t, d) :: rest =>
      if d < W then
        getSessionsLoop W { durs := cur.durs ++ [d], urls := cur.urls ++ [u],
                            ts := cur.ts ++ [t] } rest
      else
        cur :: getSessionsLoop W { durs := [0], urls := [u], ts := [t] } rest

/-- getSessions: split one client Timeline into sessions for window W.
The source iterates zip(dat[0], dat[1], dat[2]) starting from empty
accumulator lists. -/
def getSessions (W : ℚ) (tl : Timeline) : List Session :=
  getSessionsLoop W { durs := [], urls := [], ts := [] } (zip3 tl.urls tl.ts tl.durs)

/-- Concatenation of the url lists of a list of sessions, in order. -/
def sessionsUrls : List Session → List String
  | [] => []
  | s :: rest => s.urls ++ sessionsUrls rest

/-- Concatenation of the timestamp lists of a list of sessions, in order. -/
def sessionsTs : List Session → List PyTs
  | [] => []
  | s :: rest => s.ts ++ sessionsTs rest

/-- The gap invariant of one session: every recorded first gap is 0 and every
recorded later gap is strictly below the window. -/
def SessGapsOK (W : ℚ) (s : Session) : Prop :=
  (∀ d, s.durs[0]? = some d → d = 0) ∧ ∀ i d, 0 < i → s.durs[i]? = some d → d < W

/-- SESSION_WINDOW_MAX of the source. -/
def SESSION_WINDOW_MAX : ℕ := 40

/-- The inner loop of getSessionsURLHits for one candidate window: walk the
(url, duration) pairs, collect the urls of the current session, and on each
session boundary record the number of distinct urls of the finished session;
a final count is recorded after the loop. -/
def urlHitsLoop (period : ℚ) : List (String × ℚ) → List String → List ℕ
  | [], cur => [cur.dedup.length]
  | (u, d) :: rest, cur =>
      if d < period then urlHitsLoop period rest (cur ++ [u])
      else cur.dedup.length :: urlHitsLoop period rest [u]

/-- The bucket index used by getSessionsURLHits for a session with spages
distinct urls: lpage_hits[spages-1] for spages <= 5 (Python index -1, the
last cell, when spages = 0), lpage_hits[5] otherwise. -/
def classify (spages : ℕ) : ℕ :=
  if spages ≤ 5 then (if spages = 0 then 6 else spages - 1) else 5

/-- Increment one cell of a tally list. -/
def bump (l : List ℕ) (i : ℕ) : List ℕ := l.set i (l.getD i 0 + 1)

/-- The 7-entry tally of getSessionsURLHits for one candidate window: entry 6
starts at the number of sessions, then each session bumps its bucket. -/
def tallyOf (hits : List ℕ) : List ℕ :=
  hits.foldl (fun acc s => bump acc (classify s)) ((List.replicate 7 0).set 6 hits.length)

/-- getSessionsURLHits: one tally per candidate window; the source iterates
period over range(1, SESSION_WINDOW_MAX), i.e. 1..SESSION_WINDOW_MAX-1,
zipping dat[0] (urls) with dat[2] (durations). -/
def getSessionsURLHits (tl : Timeline) : List (List ℕ) :=
  (List.range' 1 (SESSION_WINDOW_MAX - 1)).map
    (fun period : ℕ => tallyOf (urlHitsLoop (period : ℚ) (tl.urls.zip tl.durs) []))

/-- The histogram row invariant: the six bucket counts sum to the total
session count stored in entry 6. -/
def histRowOK (t : List ℕ) : Prop := (t.take 6).sum = t.getD 6 0

instance (t : List ℕ) : Decidable (histRowOK t) := by
  unfold histRowOK
  infer_instance

/-- Element-wise addition of two per-window tally arrays, the reduce step of
the sweep: [map(sum, zip(x, y)) for x, y in zip(a, b)]. -/
def histAdd (a b : List (List ℕ)) : List (List ℕ) :=
  List.zipWith (fun x y => List.zipWith (· + ·) x y) a b

/-- One percentage cell of getSessionWindowStats: (x[j] * 100.0) / x[6]; a
zero total makes Python raise ZeroDivisionError, modelled as none. -/
def pctOf (x : List ℕ) (j : ℕ) : Option ℚ :=
  if x.getD 6 0 = 0 then none
  else some (((x.getD j 0 : ℚ) * 100) / (x.getD 6 0 : ℚ))

/-- Sequencing of an Option-producing map over a list: the whole computation
fails as soon as one element fails, like an exception escaping a Python list
comprehension. -/
def optMap {α β : Type} (f : α → Option β) : List α → Option (List β)
  | [] => some []
  | a :: rest =>
      match f a, optMap f rest with
      | some b, some bs => some (b :: bs)
      | _, _ => none

/-- getSessionWindowStats: for each page count j in range(6), the percentage
series over the window rows.  The dict indexed by 0..5 is modelled as the
list of its six rows in order. -/
def getSessionWindowStats (rows : List (List ℕ)) : Option (List (List ℚ)) :=
  optMap (fun j => optMap (fun x => pctOf x j) rows) (List.range 6)

/-- The per-client engagement record of the main flow (d11-d14): given the
page-hit count of each session of the client and the total duration, the
source computes [total_hits, total_dur, total_hits/count, total_dur/count,
count] where count accumulates 1.0 per session; an empty session list would
make the divisions raise, modelled as none. -/
def engagementRecord (hits : List ℕ) (totalDur : ℚ) : Option (List ℚ) :=
  if (hits.length : ℚ) = 0 then none
  else some [((hits.map (fun n => (n : ℚ))).sum), totalDur,
             ((hits.map (fun n => (n : ℚ))).sum) / (hits.length : ℚ),
             totalDur / (hits.length : ℚ), (hits.length : ℚ)]

/-- The loop of getOptimalSessionWindow: scan adjacent pairs of the
percentage series with their index k, record each k whose successor value is
larger, and stop as soon as numCohorts indices were recorded (the source
appends k and then breaks). -/
def optAux (numCohorts : ℕ) : List ℚ → ℕ → ℕ → List ℕ
  | a :: b :: rest, k, found =>
      if a < b then
        (if found + 1 ≥ numCohorts then [k]
         else k :: optAux numCohorts (b :: rest) (k + 1) (found + 1))
      else optAux numCohorts (b :: rest) (k + 1) found
  | _, _, _ => []

/-- getOptimalSessionWindow: the source fixes pg_vw = 0 (the series of the
1-url sessions, row 0 of the stats dict) and num_cohorts = 2. -/
def getOptimalSessionWindow (stats : List (List ℚ)) : List ℕ :=
  optAux 2 (stats.getD 0 []) 0 0

/-- The indices recorded so far by the scan of getOptimalSessionWindow when
started at offset k, without the cohort cutoff. -/
def upFrom : List ℚ → ℕ → List ℕ
  | a :: b :: rest, k =>
      if a < b then k :: upFrom (b :: rest) (k + 1) else upFrom (b :: rest) (k + 1)
  | _, _ => []

/-- The spec description of the uptick set: all indices k of the series with
percentage[k+1] > percentage[k]. -/
def uptickIndices (s : List ℚ) : List ℕ :=
  (List.range (s.length - 1)).filter (fun k => decide (s.getD k 0 < s.getD (k + 1) 0))

/-- A one-event Timeline, as built for a client with a single page visit. -/
def tlOne : Timeline := { urls := ["a"], ts := [PyTs.dt 0], durs := [0] }

/-- The three-event Timeline of the spec scenario: events at minutes
0, 5, 25, so gaps 0, 5, 20. -/
def tlEx : Timeline :=
  { urls := ["a", "b", "c"],
    ts := [PyTs.dt 0, PyTs.lst [5], PyTs.lst [25]],
    durs := [0, 5, 20] }

lemma pdUrls_length : ∀ l : List (ℚ × String), (pdUrls l).length = l.length := by
  intro l
  induction l with
  | nil => rfl
  | cons p rest ih => obtain ⟨t, u⟩ := p; simp [pdUrls, ih]

lemma pdTs_length : ∀ l : List (ℚ × String), (pdTs l).length = l.length := by
  intro l
  induction l with
  | nil => rfl
  | cons p rest ih => obtain ⟨t, u⟩ := p; simp [pdTs, ih]

lemma pdDurs_length : ∀ (l : List (ℚ × String)) (prev : ℚ), (pdDurs prev l).length = l.length := by
  intro l
  induction l with
  | nil => intro prev; rfl
  | cons p rest ih => intro prev; obtain ⟨t, u⟩ := p; simp [pdDurs, ih]

lemma pdDurs_get :
    ∀ (l : List (ℚ × String)) (prev : ℚ) (i : ℕ), i < l.length →
      (pdDurs prev l)[i]? =
        some (((l.map Prod.fst).getD i 0 - (prev :: l.map Prod.fst).getD i 0) / 60) := by
  intro l
  induction l with
  | nil => intro prev i hi; simp at hi
  | cons p rest ih =>
    intro prev i hi
    obtain ⟨t, u⟩ := p
    cases i with
    | zero => simp [pdDurs]
    | succ k =>
      have hk : k < rest.length := by simpa using hi
      simp only [pdDurs, List.getElem?_cons_succ, List.map_cons, List.getD_cons_succ]
      exact ih t k hk

lemma pdDurs_nonneg :
    ∀ (l : List (ℚ × String)) (prev : ℚ),
      List.Chain' (· ≤ ·) (prev :: l.map Prod.fst) → ∀ d ∈ pdDurs prev l, 0 ≤ d := by
  intro l
  induction l with
  | nil => intro prev _ d hd; simp [pdDurs] at hd
  | cons p rest ih =>
    intro prev hch d hd
    obtain ⟨t, u⟩ := p
    simp only [List.map_cons, List.chain'_cons] at hch
    simp only [pdDurs, List.mem_cons] at hd
    rcases hd with rfl | hd
    · have hpt : prev ≤ t := hch.1
      exact div_nonneg (by linarith) (by norm_num)
    · exact ih t (by simpa using hch.2) d hd

/-- Claim C8: for a non-empty, timestamp-sorted per-client event sequence,
getPageDurations returns a gap list of the same length as the events, with
first gap 0, each later gap equal to the elapsed minutes between consecutive
events, all gaps non-negative, and a single-event input yields gap list
[0]. -/
theorem getPageDurations_gaps (cid : String) (t0 : ℚ) (u0 : String)
    (rest : List (ℚ × String))
    (hsort : List.Chain' (fun a b : ℚ × String => a.1 ≤ b.1) ((t0, u0) :: rest)) :
    ∃ tl : Timeline, getPageDurations (cid, (t0, u0) :: rest) = some (cid, tl) ∧
      tl.durs.length = ((t0, u0) :: rest).length ∧
      tl.durs[0]? = some 0 ∧
      (∀ i, 0 < i → i < tl.durs.length →
        tl.durs[i]? =
          some ((tsAt ((t0, u0) :: rest) i - tsAt ((t0, u0) :: rest) (i - 1)) / 60)) ∧
      (∀ d ∈ tl.durs, 0 ≤ d) ∧
      (rest = [] → tl.durs = [0]) := by
  refine ⟨{ urls := u0 :: pdUrls rest, ts := PyTs.dt t0 :: pdTs rest,
            durs := 0 :: pdDurs t0 rest }, rfl, ?_, by simp, ?_, ?_, ?_⟩
  · simp [pdDurs_length]
  · intro i hi hilen
    obtain ⟨k, rfl⟩ : ∃ k, i = k + 1 := ⟨i - 1, by omega⟩
    have hk : k < rest.length := by
      simp only [List.length_cons, pdDurs_length] at hilen
      omega
    simp only [List.getElem?_cons_succ]
    rw [pdDurs_get rest t0 k hk]
    simp [tsAt, List.getD_cons_succ]
  · intro d hd
    simp only [List.mem_cons] at hd
    rcases hd with rfl | hd
    · norm_num
    · refine pdDurs_nonneg rest t0 ?_ d hd
      have := (List.chain'_map (Prod.fst : ℚ × String → ℚ)).mpr hsort
      simpa using this
  · intro h
    subst h
    rfl

/-- Witness for C8 at the two-event input (0 s, "a"), (60 s, "b"): the gap
list is [0, 1] (one minute). -/
theorem getPageDurations_gaps_witness :
    ∃ tl : Timeline, getPageDurations ("c", [((0:ℚ), "a"), ((60:ℚ), "b")]) = some ("c", tl) ∧
      tl.durs.length = ([((0:ℚ), "a"), ((60:ℚ), "b")]).length ∧
      tl.durs[0]? = some 0 ∧
      (∀ i, 0 < i → i < tl.durs.length →
        tl.durs[i]? =
          some ((tsAt [((0:ℚ), "a"), ((60:ℚ), "b")] i -
                 tsAt [((0:ℚ), "a"), ((60:ℚ), "b")] (i - 1)) / 60)) ∧
      (∀ d ∈ tl.durs, 0 ≤ d) ∧
      ([((60:ℚ), "b")] = ([] : List (ℚ × String)) → tl.durs = [0]) :=
  getPageDurations_gaps "c" 0 "a" [((60:ℚ), "b")] (by norm_num [List.chain'_cons])

lemma zip3_length_eq {α β γ : Type} :
    ∀ (a : List α) (b : List β) (c : List γ), a.length = b.length →
      c.length = a.length → (zip3 a b c).length = a.length := by
  intro a
  induction a with
  | nil => intro b c h1 h2; simp [zip3]
  | cons x xs ih =>
    intro b c h1 h2
    cases b with
    | nil => simp at h1
    | cons y ys =>
      cases c with
      | nil => simp at h2
      | cons z zs =>
        simp only [zip3, List.length_cons]
        rw [ih ys zs (by simpa using h1) (by simpa using h2)]

lemma zip3_map_fst {α β γ : Type} :
    ∀ (a : List α) (b : List β) (c : List γ), a.length = b.length →
      c.length = a.length → (zip3 a b c).map (fun e => e.1) = a := by
  intro a
  induction a with
  | nil => intro b c h1 h2; simp [zip3]
  | cons x xs ih =>
    intro b c h1 h2
    cases b with
    | nil => simp at h1
    | cons y ys =>
      cases c with
      | nil => simp at h2
      | cons z zs =>
        simp only [zip3, List.map_cons, List.cons.injEq, true_and]
        exact ih ys zs (by simpa using h1) (by simpa using h2)

lemma zip3_map_snd1 {α β γ : Type} :
    ∀ (a : List α) (b : List β) (c : List γ), a.length = b.length →
      c.length = a.length → (zip3 a b c).map (fun e => e.2.1) = b := by
  intro a
  induction a with
  | nil =>
    intro b c h1 h2
    cases b with
    | nil => simp [zip3]
    | cons y ys => simp at h1
  | cons x xs ih =>
    intro b c h1 h2
    cases b with
    | nil => simp at h1
    | cons y ys =>
      cases c with
      | nil => simp at h2
      | cons z zs =>
        simp only [zip3, List.map_cons, List.cons.injEq, true_and]
        exact ih ys zs (by simpa using h1) (by simpa using h2)

lemma zip3_mem_third {α β γ : Type} :
    ∀ (a : List α) (b : List β) (c : List γ) (e : α × β × γ), e ∈ zip3 a b c → e.2.2 ∈ c := by
  intro a
  induction a with
  | nil => intro b c e he; simp [zip3] at he
  | cons x xs ih =>
    intro b c e he
    cases b with
    | nil => simp [zip3] at he
    | cons y ys =>
      cases c with
      | nil => simp [zip3] at he
      | cons z zs =>
        simp only [zip3, List.mem_cons] at he
        rcases he with rfl | he
        · exact List.mem_cons_self z zs
        · exact List.mem_cons_of_mem z (ih ys zs e he)

lemma getSessionsLoop_urls (W : ℚ) :
    ∀ (l : List (String × PyTs × ℚ)) (cur : Session),
      sessionsUrls (getSessionsLoop W cur l) = cur.urls ++ l.map (fun e => e.1) := by
  intro l
  induction l with
  | nil => intro cur; simp [getSessionsLoop, sessionsUrls]
  | cons e rest ih =>
    intro cur
    obtain ⟨u, t, d⟩ := e
    by_cases hd : d < W
    · simp [getSessionsLoop, hd, ih, sessionsUrls]
    · simp [getSessionsLoop, hd, ih, sessionsUrls]

lemma getSessionsLoop_ts (W : ℚ) :
    ∀ (l : List (String × PyTs × ℚ)) (cur : Session),
      sessionsTs (getSessionsLoop W cur l) = cur.ts ++ l.map (fun e => e.2.1) := by
  intro l
  induction l with
  | nil => intro cur; simp [getSessionsLoop, sessionsTs]
  | cons e rest ih =>
    intro cur
    obtain ⟨u, t, d⟩ := e
    by_cases hd : d < W
    · simp [getSessionsLoop, hd, ih, sessionsTs]
    · simp [getSessionsLoop, hd, ih, sessionsTs]

lemma getSessions_urls_eq (W : ℚ) (tl : Timeline) (h1 : tl.urls.length = tl.ts.length)
    (h2 : tl.durs.length = tl.urls.length) :
    sessionsUrls (getSessions W tl) = tl.urls := by
  unfold getSessions
  rw [getSessionsLoop_urls]
  simpa using zip3_map_fst tl.urls tl.ts tl.durs h1 h2

lemma getSessions_ts_eq (W : ℚ) (tl : Timeline) (h1 : tl.urls.length = tl.ts.length)
    (h2 : tl.durs.length = tl.urls.length) :
    sessionsTs (getSessions W tl) = tl.ts := by
  unfold getSessions
  rw [getSessionsLoop_ts]
  simpa using zip3_map_snd1 tl.urls tl.ts tl.durs h1 h2

/-- Claim C1: for every window W and every non-empty well-formed Timeline,
the sessions produced by getSessions concatenate, in order, to exactly the
Timeline's url and timestamp sequences: no event duplicated or dropped, and
the original order kept. -/
theorem getSessions_concat_eq (W : ℚ) (tl : Timeline) (hwf : TimelineWF tl)
    (_hne : tl.urls ≠ []) :
    sessionsUrls (getSessions W tl) = tl.urls ∧ sessionsTs (getSessions W tl) = tl.ts := by
  obtain ⟨h1, h2, h3, h4⟩ := hwf
  exact ⟨getSessions_urls_eq W tl h1 h2, getSessions_ts_eq W tl h1 h2⟩

/-- Witness for C1 at window 15 on the three-event scenario Timeline. -/
theorem getSessions_concat_eq_witness :
    sessionsUrls (getSessions 15 tlEx) = tlEx.urls ∧
      sessionsTs (getSessions 15 tlEx) = tlEx.ts :=
  getSessions_concat_eq 15 tlEx (by decide) (by decide)

lemma pdTs_shape : ∀ (l : List (ℚ × String)), ∀ x ∈ pdTs l, ∃ t, x = PyTs.lst [t] := by
  intro l
  induction l with
  | nil => intro x hx; simp [pdTs] at hx
  | cons p rest ih =>
    intro x hx
    obtain ⟨t, u⟩ := p
    simp only [pdTs, List.mem_cons] at hx
    rcases hx with rfl | hx
    · exact ⟨t, rfl⟩
    · exact ih x hx

/-- Claim C10: for a client with at least two events, the timestamp sequence
built by getPageDurations is mixed-shape: the first entry is the bare
timestamp of the first event and every later entry is a singleton list
wrapping a timestamp, and getSessions passes exactly this sequence through
to the emitted sessions for every window. -/
theorem getPageDurations_mixed_shape (cid : String) (t0 : ℚ) (u0 : String) (t1 : ℚ)
    (u1 : String) (rest : List (ℚ × String)) :
    ∃ tl : Timeline,
      getPageDurations (cid, (t0, u0) :: (t1, u1) :: rest) = some (cid, tl) ∧
      tl.ts[0]? = some (PyTs.dt t0) ∧
      (∀ x ∈ tl.ts.tail, ∃ t, x = PyTs.lst [t]) ∧
      ∀ W : ℚ, sessionsTs (getSessions W tl) = tl.ts := by
  refine ⟨{ urls := u0 :: pdUrls ((t1, u1) :: rest),
            ts := PyTs.dt t0 :: pdTs ((t1, u1) :: rest),
            durs := 0 :: pdDurs t0 ((t1, u1) :: rest) }, rfl, by simp, ?_, ?_⟩
  · intro x hx
    exact pdTs_shape _ x (by simpa using hx)
  · intro W
    refine getSessions_ts_eq W _ ?_ ?_
    · simp [pdUrls_length, pdTs_length]
    · simp [pdUrls_length, pdDurs_length]

lemma getSessionsLoop_length_bounds (W : ℚ) :
    ∀ (l : List (String × PyTs × ℚ)) (cur : Session),
      1 ≤ (getSessionsLoop W cur l).length ∧
        (getSessionsLoop W cur l).length ≤ l.length + 1 := by
  intro l
  induction l with
  | nil => intro cur; simp [getSessionsLoop]
  | cons e rest ih =>
    intro cur
    obtain ⟨u, t, d⟩ := e
    by_cases hd : d < W
    · have h := ih { durs := cur.durs ++ [d], urls := cur.urls ++ [u], ts := cur.ts ++ [t] }
      simp only [getSessionsLoop, if_pos hd, List.length_cons]
      exact ⟨h.1, by omega⟩
    · have h := ih { durs := [0], urls := [u], ts := [t] }
      simp only [getSessionsLoop, if_neg hd, List.length_cons]
      exact ⟨by omega, by omega⟩

lemma getSessionsLoop_nonempty (W : ℚ) :
    ∀ (l : List (String × PyTs × ℚ)) (cur : Session), cur.durs ≠ [] → cur.urls ≠ [] →
      cur.ts ≠ [] → ∀ s ∈ getSessionsLoop W cur l,
        s.durs ≠ [] ∧ s.urls ≠ [] ∧ s.ts ≠ [] := by
  intro l
  induction l with
  | nil =>
    intro cur hd hu ht s hs
    simp only [getSessionsLoop, List.mem_singleton] at hs
    subst hs
    exact ⟨hd, hu, ht⟩
  | cons e rest ih =>
    intro cur hd hu ht s hs
    obtain ⟨u, t, d⟩ := e
    by_cases hdW : d < W
    · simp only [getSessionsLoop, if_pos hdW] at hs
      exact ih _ (by simp) (by simp) (by simp) s hs
    · simp only [getSessionsLoop, if_neg hdW, List.mem_cons] at hs
      rcases hs with rfl | hs
      · exact ⟨hd, hu, ht⟩
      · exact ih _ (by simp) (by simp) (by simp) s hs

/-- Counterexample to claim C2 as stated: on the well-formed one-event
Timeline with window 0 the sessionizer emits 2 sessions (more than N = 1),
one of which is empty. -/
theorem getSessions_count_cex :
    TimelineWF tlOne ∧ tlOne.urls.length = 1 ∧ (getSessions 0 tlOne).length = 2 ∧
      ∃ s ∈ getSessions 0 tlOne, s.urls = [] := by decide

/-- Claim C2 amended: for every window W > 0 and every non-empty well-formed
Timeline with N events, getSessions yields between 1 and N sessions and every
session has non-empty duration, url and timestamp lists (for W <= 0 the code
additionally emits one leading empty session, see the counterexample). -/
theorem getSessions_session_bounds (W : ℚ) (tl : Timeline) (hwf : TimelineWF tl)
    (hne : tl.urls ≠ []) (hW : 0 < W) :
    1 ≤ (getSessions W tl).length ∧ (getSessions W tl).length ≤ tl.urls.length ∧
      ∀ s ∈ getSessions W tl, s.durs ≠ [] ∧ s.urls ≠ [] ∧ s.ts ≠ [] := by
  obtain ⟨h1, h2, h3, h4⟩ := hwf
  obtain ⟨u0, us, hu⟩ : ∃ u0 us, tl.urls = u0 :: us := by
    cases hx : tl.urls with
    | nil => exact absurd hx hne
    | cons u0 us => exact ⟨u0, us, rfl⟩
  obtain ⟨t0, ts2, ht⟩ : ∃ t0 ts2, tl.ts = t0 :: ts2 := by
    cases hx : tl.ts with
    | nil => rw [hx, hu] at h1; simp at h1
    | cons t0 ts2 => exact ⟨t0, ts2, rfl⟩
  obtain ⟨d0, ds, hdu⟩ : ∃ d0 ds, tl.durs = d0 :: ds := by
    cases hx : tl.durs with
    | nil => rw [hx, hu] at h2; simp at h2
    | cons d0 ds => exact ⟨d0, ds, rfl⟩
  have hd0 : d0 = 0 := by rw [hdu] at h3; simpa using h3
  have hz : zip3 tl.urls tl.ts tl.durs = (u0, t0, (0:ℚ)) :: zip3 us ts2 ds := by
    rw [hu, ht, hdu, hd0]; rfl
  have hzl : (zip3 us ts2 ds).length = us.length := by
    refine zip3_length_eq us ts2 ds ?_ ?_
    · rw [hu, ht] at h1; simpa using h1
    · rw [hdu, hu] at h2; simpa using h2
  have hstep : getSessions W tl = getSessionsLoop W
      { durs := [0], urls := [u0], ts := [t0] } (zip3 us ts2 ds) := by
    unfold getSessions
    rw [hz]
    simp [getSessionsLoop, hW]
  rw [hstep]
  have hb := getSessionsLoop_length_bounds W (zip3 us ts2 ds)
    { durs := [0], urls := [u0], ts := [t0] }
  refine ⟨hb.1, ?_, ?_⟩
  · rw [hu]
    have := hb.2
    rw [hzl] at this
    simpa using this
  · exact getSessionsLoop_nonempty W _ _ (by simp) (by simp) (by simp)

/-- Witness for the amended C2 at window 15 on the three-event scenario
Timeline. -/
theorem getSessions_session_bounds_witness :
    1 ≤ (getSessions 15 tlEx).length ∧ (getSessions 15 tlEx).length ≤ tlEx.urls.length ∧
      ∀ s ∈ getSessions 15 tlEx, s.durs ≠ [] ∧ s.urls ≠ [] ∧ s.ts ≠ [] :=
  getSessions_session_bounds 15 tlEx (by decide) (by decide) (by norm_num)

lemma getSessionsLoop_all_split (W : ℚ) :
    ∀ (l : List (String × PyTs × ℚ)) (cur : Session), (∀ e ∈ l, ¬ e.2.2 < W) →
      getSessionsLoop W cur l =
        cur :: l.map (fun e => { durs := [0], urls := [e.1], ts := [e.2.1] }) := by
  intro l
  induction l with
  | nil => intro cur _; simp [getSessionsLoop]
  | cons e rest ih =>
    intro cur hall
    obtain ⟨u, t, d⟩ := e
    have hd : ¬ d < W := hall (u, t, d) (List.mem_cons_self _ _)
    simp only [getSessionsLoop, if_neg hd, List.map_cons]
    rw [ih _ (fun x hx => hall x (List.mem_cons_of_mem _ hx))]

/-- Counterexample to claim C3 as stated: with window 0 on the well-formed
one-event Timeline the code does not return exactly one single-event session
per event; it returns 2 sessions, the first of which is empty. -/
theorem getSessions_nonpos_window_cex :
    TimelineWF tlOne ∧ tlOne.urls.length = 1 ∧ (getSessions 0 tlOne).length = 2 ∧
      (getSessions 0 tlOne)[0]? = some { durs := [], urls := [], ts := [] } := by decide

/-- Claim C3 amended: for every well-formed Timeline and every window W <= 0,
getSessions returns one leading empty session followed by exactly one
single-event session per event of the Timeline, in order (and the zip driving
the loop covers all N events). -/
theorem getSessions_nonpos_window (W : ℚ) (tl : Timeline) (hwf : TimelineWF tl)
    (hW : W ≤ 0) :
    getSessions W tl =
      { durs := [], urls := [], ts := [] } ::
        (zip3 tl.urls tl.ts tl.durs).map
          (fun e => { durs := [0], urls := [e.1], ts := [e.2.1] }) ∧
      (zip3 tl.urls tl.ts tl.durs).length = tl.urls.length := by
  obtain ⟨h1, h2, h3, h4⟩ := hwf
  constructor
  · unfold getSessions
    apply getSessionsLoop_all_split
    intro e he
    have hmem := zip3_mem_third tl.urls tl.ts tl.durs e he
    have h0 := h4 _ hmem
    intro hlt
    linarith
  · exact zip3_length_eq tl.urls tl.ts tl.durs h1 h2

/-- Witness for the amended C3 at window 0 on the one-event Timeline. -/
theorem getSessions_nonpos_window_witness :
    getSessions 0 tlOne =
      { durs := [], urls := [], ts := [] } ::
        (zip3 tlOne.urls tlOne.ts tlOne.durs).map
          (fun e => { durs := [0], urls := [e.1], ts := [e.2.1] }) ∧
      (zip3 tlOne.urls tlOne.ts tlOne.durs).length = tlOne.urls.length :=
  getSessions_nonpos_window 0 tlOne (by decide) (by norm_num)

lemma getSessionsLoop_gaps (W : ℚ) :
    ∀ (l : List (String × PyTs × ℚ)) (cur : Session), SessGapsOK W cur →
      cur.durs ≠ [] → ∀ s ∈ getSessionsLoop W cur l, SessGapsOK W s := by
  intro l
  induction l with
  | nil =>
    intro cur hok _ s hs
    simp only [getSessionsLoop, List.mem_singleton] at hs
    subst hs
    exact hok
  | cons e rest ih =>
    intro cur hok hne s hs
    obtain ⟨u, t, d⟩ := e
    by_cases hdW : d < W
    · simp only [getSessionsLoop, if_pos hdW] at hs
      refine ih _ ⟨?_, ?_⟩ (by simp) s hs
      · intro d0 h0
        obtain ⟨c0, crest, hc⟩ : ∃ c0 crest, cur.durs = c0 :: crest := by
          cases hx : cur.durs with
          | nil => exact absurd hx hne
          | cons c0 crest => exact ⟨c0, crest, rfl⟩
        apply hok.1
        rw [hc] at h0 ⊢
        simpa using h0
      · intro i dd hipos hget
        rcases Nat.lt_or_ge i cur.durs.length with hlt | hge
        · exact hok.2 i dd hipos (by rwa [List.getElem?_append, if_pos hlt] at hget)
        · rw [List.getElem?_append_right hge] at hget
          have hi0 : i - cur.durs.length = 0 := by
            by_contra hc
            obtain ⟨k, hk⟩ : ∃ k, i - cur.durs.length = k + 1 :=
              ⟨i - cur.durs.length - 1, by omega⟩
            rw [hk] at hget
            simp at hget
          rw [hi0] at hget
          simp only [List.getElem?_cons_zero, Option.some.injEq] at hget
          exact hget ▸ hdW
    · simp only [getSessionsLoop, if_neg hdW, List.mem_cons] at hs
      rcases hs with rfl | hs
      · exact hok
      · refine ih _ ⟨?_, ?_⟩ (by simp) s hs
        · intro d0 h0
          simpa using h0.symm
        · intro i dd hipos hget
          obtain ⟨k, rfl⟩ : ∃ k, i = k + 1 := ⟨i - 1, by omega⟩
          simp at hget

/-- Claim C4: for every window W and every well-formed Timeline, every
session emitted by getSessions records 0 as its first gap (it is overwritten
on session restart regardless of the true elapsed time) and every later
recorded gap is strictly below W. -/
theorem getSessions_gap_bounds (W : ℚ) (tl : Timeline) (hwf : TimelineWF tl) :
    ∀ s ∈ getSessions W tl, SessGapsOK W s := by
  obtain ⟨h1, h2, h3, h4⟩ := hwf
  unfold getSessions
  cases hz : zip3 tl.urls tl.ts tl.durs with
  | nil =>
    intro s hs
    simp only [getSessionsLoop, List.mem_singleton] at hs
    subst hs
    constructor
    · intro d hd; simp at hd
    · intro i d _ hd; simp at hd
  | cons e l2 =>
    obtain ⟨u0, t0, d0⟩ := e
    have hd0 : d0 = 0 := by
      cases hu : tl.urls with
      | nil => rw [hu] at hz; simp [zip3] at hz
      | cons x xs =>
        cases htl : tl.ts with
        | nil => rw [hu, htl] at hz; simp [zip3] at hz
        | cons y ys =>
          cases hdl : tl.durs with
          | nil => rw [hu, htl, hdl] at hz; simp [zip3] at hz
          | cons z zs =>
            rw [hu, htl, hdl] at hz
            simp only [zip3, List.cons.injEq, Prod.mk.injEq] at hz
            have hz0 : z = d0 := hz.1.2.2
            rw [hdl] at h3
            simp at h3
            rw [← hz0, h3]
    subst hd0
    intro s hs
    by_cases hw : (0:ℚ) < W
    · simp only [getSessionsLoop, if_pos hw] at hs
      refine getSessionsLoop_gaps W l2 _ ⟨?_, ?_⟩ (by simp) s hs
      · intro d hd; simpa using hd.symm
      · intro i d hipos hd
        obtain ⟨k, rfl⟩ : ∃ k, i = k + 1 := ⟨i - 1, by omega⟩
        simp at hd
    · simp only [getSessionsLoop, if_neg hw, List.mem_cons] at hs
      rcases hs with rfl | hs
      · constructor
        · intro d hd; simp at hd
        · intro i d _ hd; simp at hd
      · refine getSessionsLoop_gaps W l2 _ ⟨?_, ?_⟩ (by simp) s hs
        · intro d hd; simpa using hd.symm
        · intro i d hipos hd
          obtain ⟨k, rfl⟩ : ∃ k, i = k + 1 := ⟨i - 1, by omega⟩
          simp at hd

/-- Witness for C4: the first session of the scenario run has gaps [0, 5],
which satisfy the gap invariant for window 15. -/
theorem getSessions_gap_bounds_witness :
    SessGapsOK 15 { durs := [0, 5], urls := ["a", "b"], ts := [PyTs.dt 0, PyTs.lst [5]] } :=
  getSessions_gap_bounds 15 tlEx (by decide) _ (by decide)

lemma foldBump_char :
    ∀ (hits : List ℕ) (a b c d e f g : ℕ),
      ∃ a2 b2 c2 d2 e2 f2 g2,
        List.foldl (fun acc s => bump acc (classify s)) [a, b, c, d, e, f, g] hits
            = [a2, b2, c2, d2, e2, f2, g2] ∧
          a2 + b2 + c2 + d2 + e2 + f2 + g2 = a + b + c + d + e + f + g + hits.length ∧
          g ≤ g2 ∧ ((∀ h ∈ hits, 1 ≤ h) → g2 = g) := by
  intro hits
  induction hits with
  | nil =>
    intro a b c d e f g
    exact ⟨a, b, c, d, e, f, g, rfl, by simp, Nat.le_refl g, fun _ => rfl⟩
  | cons h t ih =>
    intro a b c d e f g
    rw [List.foldl_cons]
    simp only [List.length_cons]
    by_cases h0 : h = 0
    · subst h0
      obtain ⟨a2, b2, c2, d2, e2, f2, g2, heq, hsum, hle, _⟩ := ih a b c d e f (g + 1)
      refine ⟨a2, b2, c2, d2, e2, f2, g2, heq, by omega, by omega, ?_⟩
      intro hall
      exact absurd (hall 0 (List.mem_cons_self 0 t)) (by omega)
    · by_cases h5 : h ≤ 5
      · have h1 : 1 ≤ h := by omega
        interval_cases h
        · obtain ⟨a2, b2, c2, d2, e2, f2, g2, heq, hsum, hle, himp⟩ := ih (a + 1) b c d e f g
          exact ⟨a2, b2, c2, d2, e2, f2, g2, heq, by omega, hle,
            fun hall => himp (fun x hx => hall x (List.mem_cons_of_mem _ hx))⟩
        · obtain ⟨a2, b2, c2, d2, e2, f2, g2, heq, hsum, hle, himp⟩ := ih a (b + 1) c d e f g
          exact ⟨a2, b2, c2, d2, e2, f2, g2, heq, by omega, hle,
            fun hall => himp (fun x hx => hall x (List.mem_cons_of_mem _ hx))⟩
        · obtain ⟨a2, b2, c2, d2, e2, f2, g2, heq, hsum, hle, himp⟩ := ih a b (c + 1) d e f g
          exact ⟨a2, b2, c2, d2, e2, f2, g2, heq, by omega, hle,
            fun hall => himp (fun x hx => hall x (List.mem_cons_of_mem _ hx))⟩
        · obtain ⟨a2, b2, c2, d2, e2, f2, g2, heq, hsum, hle, himp⟩ := ih a b c (d + 1) e f g
          exact ⟨a2, b2, c2, d2, e2, f2, g2, heq, by omega, hle,
            fun hall => himp (fun x hx => hall x (List.mem_cons_of_mem _ hx))⟩
        · obtain ⟨a2, b2, c2, d2, e2, f2, g2, heq, hsum, hle, himp⟩ := ih a b c d (e + 1) f g
          exact ⟨a2, b2, c2, d2, e2, f2, g2, heq, by omega, hle,
            fun hall => himp (fun x hx => hall x (List.mem_cons_of_mem _ hx))⟩
      · have hcl : classify h = 5 := by simp [classify, h5]
        have hb : bump [a, b, c, d, e, f, g] (classify h) = [a, b, c, d, e, f + 1, g] := by
          rw [hcl]; rfl
        rw [hb]
        obtain ⟨a2, b2, c2, d2, e2, f2, g2, heq, hsum, hle, himp⟩ := ih a b c d e (f + 1) g
        exact ⟨a2, b2, c2, d2, e2, f2, g2, heq, by omega, hle,
          fun hall => himp (fun x hx => hall x (List.mem_cons_of_mem _ hx))⟩

lemma histRowOK_explicit (a b c d e f g : ℕ) :
    histRowOK [a, b, c, d, e, f, g] ↔ a + b + c + d + e + f = g := by
  unfold histRowOK
  have h1 : ([a, b, c, d, e, f, g].take 6) = [a, b, c, d, e, f] := rfl
  have h2 : ([a, b, c, d, e, f, g].getD 6 0) = g := rfl
  rw [h1, h2]
  simp only [List.sum_cons, List.sum_nil]
  constructor <;> intro hyp <;> omega

lemma tallyOf_char (hits : List ℕ) :
    ∃ a2 b2 c2 d2 e2 f2 g2, tallyOf hits = [a2, b2, c2, d2, e2, f2, g2] ∧
      a2 + b2 + c2 + d2 + e2 + f2 + g2 = hits.length + hits.length ∧
      hits.length ≤ g2 ∧ ((∀ h ∈ hits, 1 ≤ h) → g2 = hits.length) := by
  obtain ⟨a2, b2, c2, d2, e2, f2, g2, heq, hsum, hle, himp⟩ :=
    foldBump_char hits 0 0 0 0 0 0 hits.length
  exact ⟨a2, b2, c2, d2, e2, f2, g2, heq, by omega, hle, himp⟩

lemma tallyOf_length (hits : List ℕ) : (tallyOf hits).length = 7 := by
  obtain ⟨a2, b2, c2, d2, e2, f2, g2, heq, _, _, _⟩ := tallyOf_char hits
  rw [heq]
  rfl

lemma tallyOf_rowOK (hits : List ℕ) (hpos : ∀ h ∈ hits, 1 ≤ h) :
    histRowOK (tallyOf hits) := by
  obtain ⟨a2, b2, c2, d2, e2, f2, g2, heq, hsum, hle, himp⟩ := tallyOf_char hits
  have hg : g2 = hits.length := himp hpos
  rw [heq, histRowOK_explicit]
  omega

lemma tallyOf_total_pos (hits : List ℕ) (hne : hits ≠ []) :
    1 ≤ (tallyOf hits).getD 6 0 := by
  obtain ⟨a2, b2, c2, d2, e2, f2, g2, heq, hsum, hle, _⟩ := tallyOf_char hits
  have hlen : 1 ≤ hits.length := List.length_pos.mpr hne
  rw [heq]
  have h2 : ([a2, b2, c2, d2, e2, f2, g2].getD 6 0) = g2 := rfl
  rw [h2]
  omega

lemma urlHitsLoop_ne_nil (p : ℚ) :
    ∀ (l : List (String × ℚ)) (cur : List String), urlHitsLoop p l cur ≠ [] := by
  intro l
  induction l with
  | nil => intro cur; simp [urlHitsLoop]
  | cons e rest ih =>
    intro cur
    obtain ⟨u, d⟩ := e
    by_cases hd : d < p
    · simp only [urlHitsLoop, if_pos hd]
      exact ih _
    · simp [urlHitsLoop, if_neg hd]

lemma urlHitsLoop_pos (p : ℚ) :
    ∀ (l : List (String × ℚ)) (cur : List String), cur ≠ [] →
      ∀ h ∈ urlHitsLoop p l cur, 1 ≤ h := by
  intro l
  induction l with
  | nil =>
    intro cur hcur h hh
    simp only [urlHitsLoop, List.mem_singleton] at hh
    subst hh
    have : cur.dedup ≠ [] := fun hnil => hcur ((List.dedup_eq_nil cur).mp hnil)
    exact List.length_pos.mpr this
  | cons e rest ih =>
    intro cur hcur h hh
    obtain ⟨u, d⟩ := e
    by_cases hd : d < p
    · simp only [urlHitsLoop, if_pos hd] at hh
      exact ih _ (by simp) h hh
    · simp only [urlHitsLoop, if_neg hd, List.mem_cons] at hh
      rcases hh with rfl | hh
      · have : cur.dedup ≠ [] := fun hnil => hcur ((List.dedup_eq_nil cur).mp hnil)
        exact List.length_pos.mpr this
      · exact ih _ (by simp) h hh

lemma len7_explode (x : List ℕ) (hx : x.length = 7) :
    ∃ a b c d e f g, x = [a, b, c, d, e, f, g] := by
  rcases x with _ | ⟨a, x⟩
  · simp at hx
  rcases x with _ | ⟨b, x⟩
  · simp at hx
  rcases x with _ | ⟨c, x⟩
  · simp at hx
  rcases x with _ | ⟨d, x⟩
  · simp at hx
  rcases x with _ | ⟨e, x⟩
  · simp at hx
  rcases x with _ | ⟨f, x⟩
  · simp at hx
  rcases x with _ | ⟨g, x⟩
  · simp at hx
  rcases x with _ | ⟨h, x⟩
  · exact ⟨a, b, c, d, e, f, g, rfl⟩
  · simp at hx

lemma rowOK_add (x y : List ℕ) (hx7 : x.length = 7) (hy7 : y.length = 7)
    (hx : histRowOK x) (hy : histRowOK y) :
    (List.zipWith (· + ·) x y).length = 7 ∧ histRowOK (List.zipWith (· + ·) x y) := by
  obtain ⟨a1, b1, c1, d1, e1, f1, g1, rfl⟩ := len7_explode x hx7
  obtain ⟨a2, b2, c2, d2, e2, f2, g2, rfl⟩ := len7_explode y hy7
  have hz : List.zipWith (· + ·) [a1, b1, c1, d1, e1, f1, g1] [a2, b2, c2, d2, e2, f2, g2]
      = [a1 + a2, b1 + b2, c1 + c2, d1 + d2, e1 + e2, f1 + f2, g1 + g2] := rfl
  rw [hz]
  rw [histRowOK_explicit] at hx hy
  refine ⟨rfl, ?_⟩
  rw [histRowOK_explicit]
  omega

lemma mem_histAdd :
    ∀ (a b : List (List ℕ)) (t : List ℕ), t ∈ histAdd a b →
      ∃ x ∈ a, ∃ y ∈ b, t = List.zipWith (· + ·) x y := by
  intro a
  induction a with
  | nil => intro b t ht; simp [histAdd] at ht
  | cons x xs ih =>
    intro b t ht
    cases b with
    | nil => simp [histAdd] at ht
    | cons y ys =>
      simp only [histAdd, List.zipWith_cons_cons, List.mem_cons] at ht
      rcases ht with rfl | ht
      · exact ⟨x, List.mem_cons_self x xs, y, List.mem_cons_self y ys, rfl⟩
      · obtain ⟨x2, hx2, y2, hy2, rfl⟩ := ih ys t ht
        exact ⟨x2, List.mem_cons_of_mem x hx2, y2, List.mem_cons_of_mem y hy2, rfl⟩

/-- Counterexample to claim C5 as stated: the sweep of getSessionsURLHits
produces 39 tallies, not SESSION_WINDOW_MAX = 40, because the source iterates
range(1, SESSION_WINDOW_MAX), which excludes the upper bound. -/
theorem getSessionsURLHits_count_cex :
    (getSessionsURLHits tlOne).length = 39 ∧ SESSION_WINDOW_MAX = 40 ∧
      (getSessionsURLHits tlOne).length ≠ SESSION_WINDOW_MAX := by
  have h : (getSessionsURLHits tlOne).length = 39 := by
    unfold getSessionsURLHits
    rw [List.length_map, List.length_range']
    rfl
  refine ⟨h, rfl, ?_⟩
  rw [h]
  decide

/-- Claim C5 amended: getSessionsURLHits evaluates the candidate windows of
the half-open range [1, SESSION_WINDOW_MAX), producing exactly
SESSION_WINDOW_MAX - 1 = 39 tallies per client, each with 7 entries. -/
theorem getSessionsURLHits_count (tl : Timeline) :
    (getSessionsURLHits tl).length = SESSION_WINDOW_MAX - 1 ∧
      ∀ t ∈ getSessionsURLHits tl, t.length = 7 := by
  constructor
  · unfold getSessionsURLHits
    rw [List.length_map, List.length_range']
  · intro t ht
    unfold getSessionsURLHits at ht
    obtain ⟨p, hp, rfl⟩ := List.mem_map.mp ht
    exact tallyOf_length _

/-- Witness for the amended C5 on the one-event Timeline, whose tally for
every candidate window is [1, 0, 0, 0, 0, 0, 1]. -/
theorem getSessionsURLHits_count_witness :
    (getSessionsURLHits tlOne).length = SESSION_WINDOW_MAX - 1 ∧
      ([1, 0, 0, 0, 0, 0, 1] : List ℕ).length = 7 :=
  ⟨(getSessionsURLHits_count tlOne).1,
   (getSessionsURLHits_count tlOne).2 [1, 0, 0, 0, 0, 0, 1] (by decide)⟩

/-- Claim C7: every 7-entry tally produced by getSessionsURLHits for a
non-empty well-formed Timeline has its six bucket counts summing to the
total-session entry 6, and this invariant is preserved by the element-wise
summation of tally arrays into the global histogram. -/
theorem histogram_sum_ok (tl : Timeline) (hwf : TimelineWF tl) (hne : tl.urls ≠ []) :
    (∀ t ∈ getSessionsURLHits tl, t.length = 7 ∧ histRowOK t) ∧
      ∀ a b : List (List ℕ),
        (∀ x ∈ a, x.length = 7 ∧ histRowOK x) →
          (∀ y ∈ b, y.length = 7 ∧ histRowOK y) →
            ∀ t ∈ histAdd a b, t.length = 7 ∧ histRowOK t := by
  constructor
  · intro t ht
    unfold getSessionsURLHits at ht
    obtain ⟨p, hp, rfl⟩ := List.mem_map.mp ht
    have hp0 : 0 < p := by
      obtain ⟨i, hi, rfl⟩ := List.mem_range'.mp hp
      omega
    have hq : (0:ℚ) < (p:ℚ) := by exact_mod_cast hp0
    obtain ⟨h1, h2, h3, h4⟩ := hwf
    obtain ⟨u0, us, hu⟩ : ∃ u0 us, tl.urls = u0 :: us := by
      cases hx : tl.urls with
      | nil => exact absurd hx hne
      | cons u0 us => exact ⟨u0, us, rfl⟩
    obtain ⟨d0, ds, hdu⟩ : ∃ d0 ds, tl.durs = d0 :: ds := by
      cases hx : tl.durs with
      | nil => rw [hx, hu] at h2; simp at h2
      | cons d0 ds => exact ⟨d0, ds, rfl⟩
    have hd0 : d0 = 0 := by rw [hdu] at h3; simpa using h3
    have hzip : tl.urls.zip tl.durs = (u0, (0:ℚ)) :: us.zip ds := by
      rw [hu, hdu, hd0]; rfl
    have hloop : urlHitsLoop (p:ℚ) (tl.urls.zip tl.durs) [] =
        urlHitsLoop (p:ℚ) (us.zip ds) [u0] := by
      rw [hzip]
      simp [urlHitsLoop, hq]
    rw [hloop]
    have hpos := urlHitsLoop_pos (p:ℚ) (us.zip ds) [u0] (by simp)
    exact ⟨tallyOf_length _, tallyOf_rowOK _ hpos⟩
  · intro a b ha hb t ht
    obtain ⟨x, hx, y, hy, rfl⟩ := mem_histAdd a b t ht
    exact rowOK_add x y (ha x hx).1 (hb y hy).1 (ha x hx).2 (hb y hy).2

/-- Witness for C7: the tally of the one-event Timeline satisfies the sum
invariant, as does the element-wise sum of two such tallies. -/
theorem histogram_sum_ok_witness :
    (([1, 0, 0, 0, 0, 0, 1] : List ℕ).length = 7 ∧ histRowOK [1, 0, 0, 0, 0, 0, 1]) ∧
      (([2, 0, 0, 0, 0, 0, 2] : List ℕ).length = 7 ∧ histRowOK [2, 0, 0, 0, 0, 0, 2]) :=
  ⟨(histogram_sum_ok tlOne (by decide) (by decide)).1 [1, 0, 0, 0, 0, 0, 1] (by decide),
   (histogram_sum_ok tlOne (by decide) (by decide)).2
     [[1, 0, 0, 0, 0, 0, 1]] [[1, 0, 0, 0, 0, 0, 1]]
     (by intro x hx; simp only [List.mem_singleton] at hx; subst hx; exact ⟨rfl, by decide⟩)
     (by intro y hy; simp only [List.mem_singleton] at hy; subst hy; exact ⟨rfl, by decide⟩)
     [2, 0, 0, 0, 0, 0, 2] (by decide)⟩

lemma optMap_isSome {α β : Type} (f : α → Option β) :
    ∀ l : List α, (∀ a ∈ l, (f a).isSome = true) → (optMap f l).isSome = true := by
  intro l
  induction l with
  | nil => intro _; rfl
  | cons a rest ih =>
    intro hall
    have ha := hall a (List.mem_cons_self a rest)
    have hr := ih (fun x hx => hall x (List.mem_cons_of_mem a hx))
    obtain ⟨b, hb⟩ := Option.isSome_iff_exists.mp ha
    obtain ⟨bs, hbs⟩ := Option.isSome_iff_exists.mp hr
    simp [optMap, hb, hbs]

/-- Counterexample to claim C9 as stated: getSessionWindowStats does not
guard the division; on a histogram row whose total-session entry is 0 the
whole computation fails with the modelled ZeroDivisionError (none) instead
of reporting an absent metric. -/
theorem getSessionWindowStats_zero_denominator_cex :
    getSessionWindowStats [[0, 0, 0, 0, 0, 0, 0]] = none := rfl

/-- Claim C9 amended: the divisions are unguarded (a zero denominator
raises), but no zero denominator occurs in the pipeline: every tally of
getSessionsURLHits has total-session entry at least 1, so
getSessionWindowStats succeeds on the swept histogram, and the per-client
engagement averages succeed whenever the client has at least one session. -/
theorem division_guards (tl : Timeline) :
    (∀ t ∈ getSessionsURLHits tl, 1 ≤ t.getD 6 0) ∧
      (getSessionWindowStats (getSessionsURLHits tl)).isSome = true ∧
      ∀ (hits : List ℕ) (dur : ℚ), hits ≠ [] →
        (engagementRecord hits dur).isSome = true := by
  have hpos : ∀ t ∈ getSessionsURLHits tl, 1 ≤ t.getD 6 0 := by
    intro t ht
    unfold getSessionsURLHits at ht
    obtain ⟨p, hp, rfl⟩ := List.mem_map.mp ht
    exact tallyOf_total_pos _ (urlHitsLoop_ne_nil _ _ _)
  refine ⟨hpos, ?_, ?_⟩
  · unfold getSessionWindowStats
    apply optMap_isSome
    intro j _
    apply optMap_isSome
    intro x hx
    have h1 := hpos x hx
    have hne6 : x.getD 6 0 ≠ 0 := by omega
    have hx6 : pctOf x j = some (((x.getD j 0 : ℚ) * 100) / (x.getD 6 0 : ℚ)) := by
      unfold pctOf
      rw [if_neg hne6]
    rw [hx6]
    rfl
  · intro hits dur hne
    have hlen : hits.length ≠ 0 := fun h => hne (List.length_eq_zero.mp h)
    have hq : (hits.length : ℚ) ≠ 0 := Nat.cast_ne_zero.mpr hlen
    simp [engagementRecord, hq]

/-- Witness for the amended C9: the tally of the one-event client has total
1, and the engagement record of a client with one session is defined. -/
theorem division_guards_witness :
    1 ≤ ([1, 0, 0, 0, 0, 0, 1] : List ℕ).getD 6 0 ∧
      (engagementRecord [3] 5).isSome = true :=
  ⟨(division_guards tlOne).1 [1, 0, 0, 0, 0, 0, 1] (by decide),
   (division_guards tlOne).2.2 [3] 5 (by decide)⟩

lemma upFrom_shift : ∀ (l : List ℚ) (k : ℕ), upFrom l (k + 1) = (upFrom l k).map (fun j => j + 1) := by
  intro l
  induction l with
  | nil => intro k; rfl
  | cons a l2 ih =>
    intro k
    cases l2 with
    | nil => rfl
    | cons b rest =>
      by_cases hab : a < b
      · simp only [upFrom, if_pos hab, List.map_cons]
        rw [ih (k + 1)]
      · simp only [upFrom, if_neg hab]
        rw [ih (k + 1)]

lemma optAux_eq_take (c : ℕ) :
    ∀ (l : List ℚ) (k found : ℕ), found < c →
      optAux c l k found = (upFrom l k).take (c - found) := by
  intro l
  induction l with
  | nil => intro k found _; simp [optAux, upFrom]
  | cons a l2 ih =>
    intro k found hf
    cases l2 with
    | nil => simp [optAux, upFrom]
    | cons b rest =>
      by_cases hab : a < b
      · by_cases hc : found + 1 ≥ c
        · have h1 : c - found = 1 := by omega
          have h2 : (k :: upFrom (b :: rest) (k + 1)).take 1 = [k] := rfl
          simp only [optAux, upFrom, if_pos hab, if_pos hc, h1, h2]
        · have h2 : found + 1 < c := by omega
          have h3 : c - found = (c - (found + 1)) + 1 := by omega
          simp only [optAux, upFrom, if_pos hab, if_neg hc]
          rw [ih (k + 1) (found + 1) h2, h3, List.take_succ_cons]
      · simp only [optAux, upFrom, if_neg hab]
        exact ih (k + 1) found hf

lemma upFrom_zero_eq : ∀ l : List ℚ, upFrom l 0 = uptickIndices l := by
  intro l
  induction l with
  | nil => rfl
  | cons a l2 ih =>
    cases l2 with
    | nil => rfl
    | cons b rest =>
      have hlen : (a :: b :: rest).length - 1 = rest.length + 1 := by simp
      have hshift := upFrom_shift (b :: rest) 0
      have hih2 : uptickIndices (b :: rest) =
          (List.range rest.length).filter
            (fun k => decide ((b :: rest).getD k 0 < (b :: rest).getD (k + 1) 0)) := by
        unfold uptickIndices
        congr 1
      have hfil : ((List.range rest.length).map Nat.succ).filter
            (fun k => decide ((a :: b :: rest).getD k 0 < (a :: b :: rest).getD (k + 1) 0))
          = ((List.range rest.length).filter
              (fun k => decide ((b :: rest).getD k 0 < (b :: rest).getD (k + 1) 0))).map
                Nat.succ := by
        rw [List.filter_map]
        congr 1
      unfold uptickIndices
      rw [hlen, List.range_succ_eq_map, List.filter_cons, hfil]
      show upFrom (a :: b :: rest) 0 = _
      unfold upFrom
      rw [hshift, ih, hih2]
      by_cases hab : a < b <;> simp [hab]

/-- Claim C6: getOptimalSessionWindow scans the 1-url percentage series in
increasing index order, records every index with an uptick, stops after 2
(the hard-coded cohort count), and returns the recorded indices in increasing
order, i.e. it returns the first two uptick indices; on the series
[60, 55, 50, 52, 48] it returns [2], and when no uptick exists it returns
the empty list. -/
theorem getOptimalSessionWindow_spec :
    (∀ stats : List (List ℚ),
        getOptimalSessionWindow stats = (uptickIndices (stats.getD 0 [])).take 2) ∧
      getOptimalSessionWindow [[60, 55, 50, 52, 48]] = [2] ∧
      ∀ stats : List (List ℚ), uptickIndices (stats.getD 0 []) = [] →
        getOptimalSessionWindow stats = [] := by
  have main : ∀ stats : List (List ℚ),
      getOptimalSessionWindow stats = (uptickIndices (stats.getD 0 [])).take 2 := by
    intro stats
    unfold getOptimalSessionWindow
    rw [optAux_eq_take 2 (stats.getD 0 []) 0 0 (by omega), upFrom_zero_eq]
  refine ⟨main, by decide, ?_⟩
  intro stats h
  rw [main, h]
  rfl

/-- Witness for C6: the scenario series and a strictly decreasing series. -/
theorem getOptimalSessionWindow_spec_witness :
    getOptimalSessionWindow [[(60:ℚ), 55, 50, 52, 48]] =
        (uptickIndices (([[(60:ℚ), 55, 50, 52, 48]] : List (List ℚ)).getD 0 [])).take 2 ∧
      getOptimalSessionWindow [[(50:ℚ), 40, 30]] = [] :=
  ⟨getOptimalSessionWindow_spec.1 [[(60:ℚ), 55, 50, 52, 48]],
   getOptimalSessionWindow_spec.2.2 [[(50:ℚ), 40, 30]] (by decide)⟩
